import Mathlib

/-!
Shallow embedding of the decode-and-emit pipeline of `acmtool.c` (libacm
command-line core): the WAV header builder `write_wav_header`, the two decode
drivers `libacm_decode_file` (sequential file sink) and
`libacm_decode_file_to_mem` (pre-sized memory sink), the sample-count reader
`get_sample_count`, and the header patcher `libacm_set_channels`.

Modelling conventions:
* A byte is a `Nat` (values < 256 where bytes come from `put_word`/`put_dword`
  masking; file contents supplied by theorems use byte values).
* A file sink is the `List Nat` of bytes written so far (`fwrite` appends; all
  writes in a modelled session succeed, matching the claims' "every sink write
  succeeds" premise).
* A memory sink is a `List Nat` of fixed length; `memcpy(dst, src, n)` with
  `dst` the region base is `memWrite`, which overwrites the first `n` bytes.
* The external decoder (`acm_read_loop`) is a black box: a session is driven
  by a `List Step`, one entry per call; `Step.chunk data` is a call returning
  `data.length` bytes placed in the caller buffer, `Step.stop code` a call
  returning `code ≤ 0` (0 = end of stream, negative = codec error).  In the C
  source both non-positive results break the loop, a zero-length chunk behaves
  like end of stream (`if (!res) break`).
* C `unsigned` (32-bit) arithmetic is `Nat` arithmetic with `% 4294967296`
  where the C expression can wrap; `ACM_WORD = 2`.
* `n_chan` of `libacm_set_channels` is a C `int`, stored into an
  `unsigned char`, i.e. reduced mod 256 (`Int.emod`, nonnegative).
-/

/-- `put_word` macro of acmtool.c: store a 16-bit value little-endian. -/
def put_word (v : Nat) : List Nat :=
  [v % 256, v / 256 % 256]

/-- `put_dword` macro of acmtool.c: store a 32-bit value little-endian. -/
def put_dword (v : Nat) : List Nat :=
  [v % 256, v / 256 % 256, v / 65536 % 256, v / 16777216 % 256]

/-- Read back a 16-bit little-endian field at byte offset `i`. -/
def leWord (l : List Nat) (i : Nat) : Nat :=
  l.getD i 0 + 256 * l.getD (i + 1) 0

/-- Read back a 32-bit little-endian field at byte offset `i`. -/
def leDword (l : List Nat) (i : Nat) : Nat :=
  l.getD i 0 + 256 * l.getD (i + 1) 0 + 65536 * l.getD (i + 2) 0 +
    16777216 * l.getD (i + 3) 0

/-- The 44 header bytes assembled in `hdr` by `write_wav_header`
(acmtool.c lines 210–239), for channel count `n_channels`, sample rate
`srate` and data-chunk byte count `datalen` (the C locals `n_channels`,
`srate`, `datalen` are `unsigned`; products and sums wrap mod 2^32):
`"RIFF"`, `wavlen = 4+8+16+8+datalen`, `"WAVEfmt "`, `hdrlen = 16`,
`code = 1`, channels, rate, `avg_bps = srate*n_channels*2`,
`block_align = 16*n_channels/8`, `significant_bits = 16`, `"data"`,
`datalen`. -/
def write_wav_header_bytes (n_channels srate datalen : Nat) : List Nat :=
  [82, 73, 70, 70] ++
  put_dword ((4 + 8 + 16 + 8 + datalen) % 4294967296) ++
  [87, 65, 86, 69, 102, 109, 116, 32] ++
  put_dword 16 ++
  put_word 1 ++
  put_word n_channels ++
  put_dword srate ++
  put_dword (srate * n_channels * 2 % 4294967296) ++
  put_word (16 * n_channels % 4294967296 / 8) ++
  put_word 16 ++
  [100, 97, 116, 97] ++
  put_dword (datalen % 4294967296)

/-- `memcpy(base, data, data.length)` into the memory region `mem`, at the
region's base address: the first `data.length` bytes are overwritten. -/
def memWrite (mem data : List Nat) : List Nat :=
  data ++ mem.drop data.length

/-- `write_wav_header(f, acm, mode)` (acmtool.c lines 210–255).
`datalen = acm_pcm_total * ACM_WORD * acm_channels` in `unsigned`
arithmetic.  Mode 1 writes the 44 bytes through the sequential sink `f`
(`fwrite`, modelled as succeeding); mode 2 copies them to the base of the
memory region `f` (`memcpy`, which always returns its destination, so the
defensive pointer check never fires).  Returns the updated sink and the C
return value. -/
def write_wav_header (f : List Nat) (pcm_total channels srate : Nat)
    (mode : Nat) : List Nat × Int :=
  let hdr := write_wav_header_bytes channels srate
    (pcm_total * 2 * channels % 4294967296)
  if mode = 1 then (f ++ hdr, 0)
  else if mode = 2 then (memWrite f hdr, 0)
  else (f, 0)

/-- One call to the external decoder `acm_read_loop`: either it fills the
caller buffer with `data` (returning `data.length`), or it returns a
non-positive code (`0` = end of stream, negative = codec error). -/
inductive Step where
  | chunk (data : List Nat) : Step
  | stop (code : Int) : Step

/-- The Streaming loop of `libacm_decode_file` (acmtool.c lines 392–409),
with a sequential sink: `while (bytes_done < total_bytes)` pull one chunk;
`res = 0` breaks (end of stream), `res > 0` appends the chunk to the sink
and advances `bytes_done`, `res < 0` breaks (codec error).  All sink
writes succeed.  Returns the sink and `bytes_done`. -/
def streamLoop (total : Nat) : List Step → List Nat → Nat → List Nat × Nat
  | [], out, done => (out, done)
  | step :: rest, out, done =>
    if done < total then
      match step with
      | Step.chunk data =>
        if data.length = 0 then (out, done)
        else streamLoop total rest (out ++ data) (done + data.length)
      | Step.stop _ => (out, done)
    else (out, done)

/-- The Padding loop of `libacm_decode_file` (acmtool.c lines 411–428),
fuelled: each iteration writes `bs = min(16384, total - done)` zero bytes
(the chunk buffer after `memset(buf, 0, buflen)`) to the sequential sink.
The C loop adds at least one byte per iteration, so `total - done` units
of fuel suffice. -/
def padLoopF : Nat → Nat → Nat → List Nat → List Nat
  | 0, _, _, out => out
  | fuel + 1, total, done, out =>
    if done < total then
      padLoopF fuel total
        (done + (if total < done + 16384 then total - done else 16384))
        (out ++ List.replicate
          (if total < done + 16384 then total - done else 16384) 0)
    else out

/-- The Padding loop entered at `bytes_done = done`. -/
def padLoop (total done : Nat) (out : List Nat) : List Nat :=
  padLoopF (total - done) total done out

/-- `libacm_decode_file` (acmtool.c lines 351–434) with output enabled
(`cf_no_output = 0`) and a successfully opened decoder, as the claims'
sessions assume; the sink starts empty.  `raw` is `cf_raw` (skip the WAV
header).  `total_bytes = acm_pcm_total * acm_channels * ACM_WORD`.
Returns the byte sequence delivered to the sink. -/
def libacm_decode_file (raw : Bool) (pcm_total channels srate : Nat)
    (steps : List Step) : List Nat :=
  let total := pcm_total * channels * 2
  let fo1 := if raw then ([] : List Nat)
    else (write_wav_header [] pcm_total channels srate 1).1
  let p := streamLoop total steps fo1 0
  padLoop total p.2 p.1

/-- `get_sample_count` (acmtool.c lines 257–279): read the 32-bit
little-endian dword at byte offset 4 of the input file (`fseek(4)` then
`fread` of 4 bytes, byte-swapped on big-endian hosts so the value is the
little-endian interpretation either way); fails (nonzero return, modelled
as `none`) when the 4 bytes cannot be read. -/
def get_sample_count (file : List Nat) : Option Nat :=
  if 8 ≤ file.length then some (leDword file 4) else none

/-- The `wavsize` computed by `libacm_decode_file_to_mem` before `malloc`
(acmtool.c lines 298–302): `wavsize` is a `uint32_t`, shifted left by the
channel count and then increased by 44, both wrapping mod 2^32. -/
def acm_alloc_size (w0 sh : Nat) : Nat :=
  ((w0 <<< sh) % 4294967296 + 44) % 4294967296

/-- The memory region allocated by `libacm_decode_file_to_mem`
(acmtool.c lines 295–303): the dword read by `get_sample_count`, shifted
by the forced channel count if nonzero and otherwise by the container's
stored channel count, plus 44; `none` when `get_sample_count` fails.
(`malloc` contents are modelled as zero; no modelled session reads an
unwritten byte.) -/
def to_mem_region (force_chans stored_chans : Nat) (file : List Nat) :
    Option (List Nat) :=
  (get_sample_count file).map fun w0 =>
    List.replicate
      (acm_alloc_size w0
        (if force_chans ≠ 0 then force_chans else stored_chans)) 0

/-- The Streaming loop of `libacm_decode_file_to_mem` (acmtool.c lines
314–329): identical control flow to `streamLoop`, but each chunk is
delivered by `memcpy(result, buf, res)` — i.e. `memWrite` at the region
base (`res2 != result` never holds, so that break is dead). -/
def memStreamLoop (total : Nat) : List Step → List Nat → Nat → List Nat × Nat
  | [], mem, done => (mem, done)
  | step :: rest, mem, done =>
    if done < total then
      match step with
      | Step.chunk data =>
        if data.length = 0 then (mem, done)
        else memStreamLoop total rest (memWrite mem data) (done + data.length)
      | Step.stop _ => (mem, done)
    else (mem, done)

/-- The Padding loop of `libacm_decode_file_to_mem` (acmtool.c lines
331–345), fuelled like `padLoopF`: each iteration delivers
`bs = min(16384, total - done)` zero bytes by `memcpy(result, buf, bs)` —
again at the region base. -/
def memPadLoopF : Nat → Nat → Nat → List Nat → List Nat
  | 0, _, _, mem => mem
  | fuel + 1, total, done, mem =>
    if done < total then
      memPadLoopF fuel total
        (done + (if total < done + 16384 then total - done else 16384))
        (memWrite mem (List.replicate
          (if total < done + 16384 then total - done else 16384) 0))
    else mem

/-- `libacm_decode_file_to_mem` (acmtool.c lines 281–349).  `openOk`
models `acm_open_file` succeeding; `pcm_total`, `channels`, `srate` are
the decoder accessors; `stored_chans` is `acm->info.acm_channels`,
`force_chans` is the `cf_force_chans` argument; `file` is the input
file's bytes (read by `get_sample_count`); `steps` drives the decoder.
Returns `none` exactly where the C function returns `NULL`, otherwise
the final contents of the allocated region. -/
def libacm_decode_file_to_mem (openOk : Bool)
    (pcm_total channels stored_chans force_chans srate : Nat)
    (file : List Nat) (steps : List Step) : Option (List Nat) :=
  if openOk = false then none
  else
    match to_mem_region force_chans stored_chans file with
    | none => none
    | some mem0 =>
      let total := pcm_total * channels * 2
      let mem1 := (write_wav_header mem0 pcm_total channels srate 2).1
      let p := memStreamLoop total steps mem1 0
      some (memPadLoopF (total - p.2) total p.2 p.1)

/-- The ACM magic `acm_id = { 0x97, 0x28, 0x03, 0x01 }`. -/
def acmMagic : List Nat := [151, 40, 3, 1]

/-- `libacm_set_channels` (acmtool.c lines 440–480) acting on the file
contents `file`: read 14 header bytes (fails, leaving the file
unmodified, when the file is shorter); check the 4 magic bytes; check the
stored channel word `oldnum = (hdr[9] << 8) + hdr[8]` is 1 or 2; then
rewrite the 14 header bytes with byte 8 replaced by `n_chan` truncated to
`unsigned char` — net effect: set byte 8, everything else unchanged. -/
def libacm_set_channels (file : List Nat) (n_chan : Int) : List Nat :=
  if file.length < 14 then file
  else if file.take 4 ≠ acmMagic then file
  else if file.getD 9 0 * 256 + file.getD 8 0 ≠ 1 ∧
      file.getD 9 0 * 256 + file.getD 8 0 ≠ 2 then file
  else file.set 8 (n_chan % 256).toNat

/-! ## Helper lemmas -/

theorem write_wav_header_bytes_length (c r d : Nat) :
    (write_wav_header_bytes c r d).length = 44 := rfl

theorem padLoopF_eq : ∀ (n total done : Nat) (out : List Nat),
    total - done ≤ n →
    padLoopF n total done out = out ++ List.replicate (total - done) 0 := by
  intro n
  induction n with
  | zero =>
    intro total done out h
    have h0 : total - done = 0 := Nat.le_zero.mp h
    simp [padLoopF, h0, Nat.sub_eq_zero_iff_le.mp h0]
  | succ n ih =>
    intro total done out h
    by_cases hlt : done < total
    · rw [padLoopF, if_pos hlt]
      by_cases hb : total < done + 16384
      · rw [if_pos hb, ih _ _ _ (by omega)]
        have : total - (done + (total - done)) = 0 := by omega
        rw [this]
        simp
      · rw [if_neg hb, ih _ _ _ (by omega)]
        rw [List.append_assoc, ← List.replicate_add]
        have : 16384 + (total - (done + 16384)) = total - done := by omega
        rw [this]
    · rw [padLoopF, if_neg hlt]
      have h0 : total - done = 0 := by omega
      simp [h0]

theorem padLoop_eq (total done : Nat) (out : List Nat) :
    padLoop total done out = out ++ List.replicate (total - done) 0 :=
  padLoopF_eq _ total done out le_rfl

theorem streamLoop_cons_chunk (total : Nat) (data : List Nat)
    (rest : List Step) (out : List Nat) (done : Nat)
    (hlt : done < total) (h0 : data.length ≠ 0) :
    streamLoop total (Step.chunk data :: rest) out done
      = streamLoop total rest (out ++ data) (done + data.length) := by
  simp [streamLoop, hlt, h0]

theorem streamLoop_cons_chunk_nil (total : Nat) (data : List Nat)
    (rest : List Step) (out : List Nat) (done : Nat) (h0 : data.length = 0) :
    streamLoop total (Step.chunk data :: rest) out done = (out, done) := by
  simp [streamLoop, h0]

theorem streamLoop_cons_stop (total : Nat) (c : Int) (rest : List Step)
    (out : List Nat) (done : Nat) :
    streamLoop total (Step.stop c :: rest) out done = (out, done) := by
  simp [streamLoop]

theorem streamLoop_cons_done (total : Nat) (step : Step) (rest : List Step)
    (out : List Nat) (done : Nat) (hlt : ¬ done < total) :
    streamLoop total (step :: rest) out done = (out, done) := by
  simp [streamLoop, hlt]

theorem streamLoop_len (total : Nat) : ∀ (steps : List Step) (out : List Nat)
    (done : Nat),
    (streamLoop total steps out done).1.length + done
      = out.length + (streamLoop total steps out done).2 := by
  intro steps
  induction steps with
  | nil => intro out done; simp [streamLoop]
  | cons step rest ih =>
    intro out done
    by_cases hlt : done < total
    · cases step with
      | chunk data =>
        by_cases h0 : data.length = 0
        · rw [streamLoop_cons_chunk_nil total data rest out done h0]
        · rw [streamLoop_cons_chunk total data rest out done hlt h0]
          have := ih (out ++ data) (done + data.length)
          simp only [List.length_append] at this ⊢
          omega
      | stop code => rw [streamLoop_cons_stop]
    · rw [streamLoop_cons_done total step rest out done hlt]

theorem streamLoop_done_le (total : Nat) : ∀ (steps : List Step)
    (out : List Nat) (done : Nat),
    done ≤ (streamLoop total steps out done).2 := by
  intro steps
  induction steps with
  | nil => intro out done; simp [streamLoop]
  | cons step rest ih =>
    intro out done
    by_cases hlt : done < total
    · cases step with
      | chunk data =>
        by_cases h0 : data.length = 0
        · rw [streamLoop_cons_chunk_nil total data rest out done h0]
        · rw [streamLoop_cons_chunk total data rest out done hlt h0]
          have := ih (out ++ data) (done + data.length)
          omega
      | stop code => rw [streamLoop_cons_stop]
    · rw [streamLoop_cons_done total step rest out done hlt]

theorem streamLoop_snd_out (total : Nat) : ∀ (steps : List Step)
    (out out' : List Nat) (done : Nat),
    (streamLoop total steps out done).2 = (streamLoop total steps out' done).2 := by
  intro steps
  induction steps with
  | nil => intro out out' done; simp [streamLoop]
  | cons step rest ih =>
    intro out out' done
    by_cases hlt : done < total
    · cases step with
      | chunk data =>
        by_cases h0 : data.length = 0
        · rw [streamLoop_cons_chunk_nil total data rest out done h0,
            streamLoop_cons_chunk_nil total data rest out' done h0]
        · rw [streamLoop_cons_chunk total data rest out done hlt h0,
            streamLoop_cons_chunk total data rest out' done hlt h0]
          exact ih (out ++ data) (out' ++ data) (done + data.length)
      | stop code => rw [streamLoop_cons_stop, streamLoop_cons_stop]
    · rw [streamLoop_cons_done total step rest out done hlt,
        streamLoop_cons_done total step rest out' done hlt]

theorem streamLoop_chunks (total : Nat) (e : Int) (rest : List Step) :
    ∀ (pre : List (List Nat)) (out : List Nat) (done : Nat),
    (∀ d ∈ pre, d ≠ []) →
    done + (pre.map List.length).sum < total →
    streamLoop total (pre.map Step.chunk ++ Step.stop e :: rest) out done
      = (out ++ pre.flatten, done + (pre.map List.length).sum) := by
  intro pre
  induction pre with
  | nil =>
    intro out done _ hlt
    simp only [List.map_nil, List.nil_append]
    rw [streamLoop_cons_stop]
    simp
  | cons d pre ih =>
    intro out done hne hlt
    simp only [List.map_cons, List.sum_cons, List.cons_append] at hlt ⊢
    have hd : d ≠ [] := hne d (by simp)
    have h0 : d.length ≠ 0 := by simpa using hd
    rw [streamLoop_cons_chunk total d _ out done (by omega) h0]
    rw [ih (out ++ d) (done + d.length) (fun x hx => hne x (by simp [hx]))
      (by omega)]
    simp [List.append_assoc]
    omega

/-! ## Claim theorems -/

/-- C1 (counterexample): the claim fails as stated.  A valid session
(decoder opens, every sink write succeeds) in which the decoder's chunk
crosses the declared total — declared 1 sample × 1 channel × 2 bytes = 2
bytes, one 4-byte chunk — delivers 4 payload bytes to the sink, not 2:
the Streaming loop checks `bytes_done < total_bytes` before each pull but
writes a produced chunk in full. -/
theorem decode_file_overshoot_cex :
    (libacm_decode_file true 1 1 8000 [Step.chunk [1, 2, 3, 4]]).length
      ≠ 1 * 1 * 2 := by decide

/-- C1 (amended): for every valid decode session (decoder opens, every
sink write succeeds) in which the decoder never delivers beyond the
declared total — i.e. the Streaming loop's final `bytes_done` does not
exceed `total_bytes` — the number of PCM payload bytes delivered to the
sink after Streaming and Padding equals exactly
`declared_sample_count × channel_count × 2`, regardless of whether the
decoder under-runs (end-of-stream or codec error before that total). -/
theorem decode_file_total_bytes (raw : Bool) (pt ch sr : Nat)
    (steps : List Step)
    (h : (streamLoop (pt * ch * 2) steps [] 0).2 ≤ pt * ch * 2) :
    (libacm_decode_file raw pt ch sr steps).length
      = (if raw then 0 else 44) + pt * ch * 2 := by
  unfold libacm_decode_file
  set total := pt * ch * 2 with htot
  set fo1 := if raw then ([] : List Nat)
    else (write_wav_header [] pt ch sr 1).1 with hfo
  have hfl : fo1.length = if raw then 0 else 44 := by
    cases raw <;> simp [hfo, write_wav_header, memWrite,
      write_wav_header_bytes_length]
  have hsnd : (streamLoop total steps fo1 0).2
      = (streamLoop total steps [] 0).2 :=
    streamLoop_snd_out total steps fo1 [] 0
  have hlen := streamLoop_len total steps fo1 0
  rw [padLoop_eq]
  simp only [List.length_append, List.length_replicate]
  omega

/-- C1 (witness). -/
theorem decode_file_total_bytes_witness :
    (libacm_decode_file false 2 1 8000
        [Step.chunk [1, 2], Step.stop 0]).length = 48 := by
  simpa using decode_file_total_bytes false 2 1 8000
    [Step.chunk [1, 2], Step.stop 0] (by decide)

/-- C6: when a decoder pull returns a negative error code during
Streaming (after any run of non-empty chunks totalling fewer than the
declared bytes), the session aborts the streaming loop immediately (any
later decoder results `rest` are never consumed) but still runs Padding:
the sink ends up with the header (if requested), then the partial decoded
output already written — preserved, not discarded — topped up with zero
bytes to the declared total length. -/
theorem decode_file_error_pads (raw : Bool) (pt ch sr : Nat)
    (pre : List (List Nat)) (e : Int) (rest : List Step)
    (_he : e < 0) (hne : ∀ d ∈ pre, d ≠ [])
    (hlt : (pre.map List.length).sum < pt * ch * 2) :
    libacm_decode_file raw pt ch sr (pre.map Step.chunk ++ Step.stop e :: rest)
      = (if raw then [] else (write_wav_header [] pt ch sr 1).1)
        ++ pre.flatten
        ++ List.replicate (pt * ch * 2 - (pre.map List.length).sum) 0 := by
  simp only [libacm_decode_file]
  rw [streamLoop_chunks (pt * ch * 2) e rest pre _ 0 hne (by omega)]
  rw [padLoop_eq]
  simp [List.append_assoc]

/-- C6 (witness). -/
theorem decode_file_error_pads_witness :
    libacm_decode_file true 3 1 8000 [Step.chunk [1, 2], Step.stop (-1)]
      = [1, 2, 0, 0, 0, 0] := by
  simpa using decode_file_error_pads true 3 1 8000 [[1, 2]] (-1) []
    (by decide) (by decide) (by decide)

/-- C7: every padding byte written to the sink is zero-valued (the
Padding loop appends exactly `total - bytes_done` zero bytes, nothing
else), and a session whose decoder signals end-of-stream on the very
first pull yields a sink containing the header (if requested) followed by
an all-zero payload of the declared length. -/
theorem padding_zeros_eos_session :
    (∀ total done out, padLoop total done out
        = out ++ List.replicate (total - done) 0) ∧
    (∀ (raw : Bool) (pt ch sr : Nat),
      libacm_decode_file raw pt ch sr [Step.stop 0]
        = (if raw then [] else (write_wav_header [] pt ch sr 1).1)
          ++ List.replicate (pt * ch * 2) 0) := by
  constructor
  · exact padLoop_eq
  · intro raw pt ch sr
    simp only [libacm_decode_file]
    rw [streamLoop_cons_stop, padLoop_eq]
    simp

/-- C2 (code evaluated at the failing input): in `libacm_decode_file_to_mem`
every chunk is `memcpy`'d to the *base* of the buffer, not at an advancing
offset after the 44-byte header.  For a session with an 8-byte input file
declaring dword 4 at offset 4, stored channel count 1 (region size
`(4 << 1) + 44 = 52`), 2 declared samples × 1 channel (4 payload bytes),
and a single decoded chunk `[9, 9, 9, 9]`, the final buffer *starts* with
the chunk bytes — the WAV header's `"RIFF"` magic `[82, 73, 70, 70]` has
been overwritten — and the payload region after byte 44 is still all
zeros instead of holding the chunk. -/
theorem decode_to_mem_header_clobbered :
    (libacm_decode_file_to_mem true 2 1 1 0 8000 [151, 40, 3, 1, 4, 0, 0, 0]
        [Step.chunk [9, 9, 9, 9]]).map (fun b => (b.take 4, b.drop 44))
      = some ([9, 9, 9, 9], List.replicate 8 0) := by decide

/-- C3: for every channel count, sample rate and total PCM byte count
(within the ranges representable in the header's unsigned fields), the
WAV header builder produces exactly 44 bytes in which, read back
little-endian: the RIFF size field equals `4+8+16+8+data_size`, the
format code is 1, the channel field is the channel count, the rate field
is the rate, the byte-rate field is `rate × channels × 2`, the
block-align field is `channels × 2`, the bits-per-sample field is 16, and
the data-chunk size field equals the total PCM byte count. -/
theorem wav_header_fields (ch rate dlen : Nat)
    (hch : 2 * ch < 65536) (hr : rate < 4294967296)
    (hbps : rate * ch * 2 < 4294967296) (hdl : dlen + 36 < 4294967296) :
    (write_wav_header_bytes ch rate dlen).length = 44 ∧
    leDword (write_wav_header_bytes ch rate dlen) 4 = 4 + 8 + 16 + 8 + dlen ∧
    leWord (write_wav_header_bytes ch rate dlen) 20 = 1 ∧
    leWord (write_wav_header_bytes ch rate dlen) 22 = ch ∧
    leDword (write_wav_header_bytes ch rate dlen) 24 = rate ∧
    leDword (write_wav_header_bytes ch rate dlen) 28 = rate * ch * 2 ∧
    leWord (write_wav_header_bytes ch rate dlen) 32 = ch * 2 ∧
    leWord (write_wav_header_bytes ch rate dlen) 34 = 16 ∧
    leDword (write_wav_header_bytes ch rate dlen) 40 = dlen := by
  refine ⟨rfl, ?_, ?_, ?_, ?_, ?_, ?_, ?_, ?_⟩ <;>
    simp [write_wav_header_bytes, put_word, put_dword, leDword, leWord,
      List.getD] <;>
    omega

/-- C3 (witness): the spec's concrete instance — channels = 2,
rate = 44100, total PCM bytes = 176400 — has RIFF size field 176436,
byte-rate field 176400 and block-align field 4. -/
theorem wav_header_fields_witness :
    (write_wav_header_bytes 2 44100 176400).length = 44 ∧
    leDword (write_wav_header_bytes 2 44100 176400) 4 = 176436 ∧
    leDword (write_wav_header_bytes 2 44100 176400) 28 = 176400 ∧
    leWord (write_wav_header_bytes 2 44100 176400) 32 = 4 := by
  obtain ⟨h1, h2, _, _, _, h6, h7, _, _⟩ :=
    wav_header_fields 2 44100 176400 (by decide) (by decide) (by decide)
      (by decide)
  exact ⟨h1, by simpa using h2, by simpa using h6, by simpa using h7⟩

/-- C4: for identical inputs, the stream-mode header emission (mode 1,
sequential write to sink `f`) and the in-place header emission (mode 2,
copy into memory region `mem`) of `write_wav_header` emit byte-identical
44-byte sequences: the bytes mode 1 appends to its sink equal the first
44 bytes of the region after mode 2, and they number exactly 44. -/
theorem wav_header_modes_agree (pt ch sr : Nat) (f mem : List Nat) :
    (write_wav_header f pt ch sr 1).1.drop f.length
      = ((write_wav_header mem pt ch sr 2).1).take 44 ∧
    ((write_wav_header f pt ch sr 1).1.drop f.length).length = 44 := by
  have hlen : (write_wav_header_bytes ch sr
      (pt * 2 * ch % 4294967296)).length = 44 := rfl
  constructor
  · show (f ++ write_wav_header_bytes ch sr (pt * 2 * ch % 4294967296)).drop
        f.length
      = (memWrite mem (write_wav_header_bytes ch sr
          (pt * 2 * ch % 4294967296))).take 44
    rw [List.drop_left, memWrite, ← hlen, List.take_left]
  · show ((f ++ write_wav_header_bytes ch sr
        (pt * 2 * ch % 4294967296)).drop f.length).length = 44
    rw [List.drop_left, hlen]

theorem leWord_eight (l : List Nat) :
    leWord l 8 = l.getD 8 0 + 256 * l.getD 9 0 := rfl

theorem set_eight_take_four (l : List Nat) (a : Nat) :
    (l.set 8 a).take 4 = l.take 4 := by
  apply List.ext_getElem?
  intro i
  rcases Nat.lt_or_ge i 4 with h | h
  · simp [List.getElem?_take, h, List.getElem?_set]
    omega
  · simp [List.getElem?_take, Nat.not_lt.mpr h]

theorem set_channels_success (file : List Nat) (n : Int)
    (hlen : 14 ≤ file.length) (hmagic : file.take 4 = acmMagic)
    (hold : leWord file 8 = 1 ∨ leWord file 8 = 2) :
    libacm_set_channels file n = file.set 8 (n % 256).toNat := by
  unfold libacm_set_channels
  rw [if_neg (by omega), if_neg (not_not_intro hmagic),
    if_neg (by rw [leWord_eight] at hold; omega)]

theorem set_channels_high_byte (file : List Nat)
    (hold : leWord file 8 = 1 ∨ leWord file 8 = 2) : file.getD 9 0 = 0 := by
  rw [leWord_eight] at hold
  omega

/-- C5 (counterexample): the claim fails as stated.  A 12-byte file
bearing the correct magic and stored channel field 1 is *not* patched
(`libacm_set_channels` needs to read 14 header bytes and rejects the file
when the read comes up short): after requesting channel count 2, the file
is unchanged and its channel byte is still 1. -/
theorem set_channels_short_file_cex :
    libacm_set_channels [151, 40, 3, 1, 0, 0, 0, 0, 1, 0, 0, 0] 2
        = [151, 40, 3, 1, 0, 0, 0, 0, 1, 0, 0, 0] ∧
      (libacm_set_channels [151, 40, 3, 1, 0, 0, 0, 0, 1, 0, 0, 0] 2).getD 8 0
        = 1 := by decide

/-- C5 (amended): `libacm_set_channels` rejects — leaving the file
unmodified — any file whose first 4 bytes are not the magic
`0x97 0x28 0x03 0x01` or whose stored little-endian 16-bit channel field
at byte offset 8 is neither 1 nor 2; when the file is at least 14 bytes
long (so the 14-byte header read succeeds) and the stored value is 1
or 2, the patch succeeds (byte 8 becomes `n_chan mod 256`) and the 4
magic bytes are unchanged afterward. -/
theorem set_channels_validation (file : List Nat) (n : Int) :
    ((file.take 4 ≠ acmMagic ∨ (leWord file 8 ≠ 1 ∧ leWord file 8 ≠ 2)) →
      libacm_set_channels file n = file) ∧
    (14 ≤ file.length → file.take 4 = acmMagic →
      (leWord file 8 = 1 ∨ leWord file 8 = 2) →
      (libacm_set_channels file n).getD 8 0 = (n % 256).toNat ∧
        (libacm_set_channels file n).take 4 = file.take 4) := by
  constructor
  · intro h
    unfold libacm_set_channels
    by_cases h14 : file.length < 14
    · rw [if_pos h14]
    · rw [if_neg h14]
      by_cases hm : file.take 4 = acmMagic
      · rcases h with h | h
        · exact absurd hm h
        · rw [if_neg (not_not_intro hm),
            if_pos (by rw [leWord_eight] at h; omega)]
      · rw [if_pos hm]
  · intro h14 hmagic hold
    rw [set_channels_success file n h14 hmagic hold]
    constructor
    · simp [List.getD, List.getElem?_set, show 8 < file.length by omega]
    · exact set_eight_take_four file (n % 256).toNat

/-- C5 (witness): a 14-byte file with stored channel field 3 is left
unmodified; one with stored channel field 1 gets byte 8 set to 2 with the
magic preserved. -/
theorem set_channels_validation_witness :
    libacm_set_channels [151, 40, 3, 1, 0, 0, 0, 0, 3, 0, 0, 0, 0, 0] 2
        = [151, 40, 3, 1, 0, 0, 0, 0, 3, 0, 0, 0, 0, 0] ∧
      ((libacm_set_channels [151, 40, 3, 1, 0, 0, 0, 0, 1, 0, 0, 0, 0, 0] 2).getD
          8 0 = 2 ∧
        (libacm_set_channels [151, 40, 3, 1, 0, 0, 0, 0, 1, 0, 0, 0, 0, 0]
            2).take 4
          = [151, 40, 3, 1, 0, 0, 0, 0, 1, 0, 0, 0, 0, 0].take 4) := by
  constructor
  · exact (set_channels_validation
      [151, 40, 3, 1, 0, 0, 0, 0, 3, 0, 0, 0, 0, 0] 2).1 (by decide)
  · simpa using (set_channels_validation
      [151, 40, 3, 1, 0, 0, 0, 0, 1, 0, 0, 0, 0, 0] 2).2 (by decide)
      (by decide) (by decide)

/-- C9: for every successful patch by `libacm_set_channels` (file at
least 14 bytes, magic present, stored channel field 1 or 2), the result
has the same length, byte 8 equals `n_chan mod 256`, every byte at an
offset other than 8 keeps its original value (offsets 0–7 and 9–13 are
rewritten with their original contents, everything past the 14-byte
header is untouched), and the stored 16-bit little-endian channel field
afterwards equals `n_chan mod 256` — its high byte (offset 9) remains 0. -/
theorem set_channels_frame (file : List Nat) (n : Int)
    (hlen : 14 ≤ file.length) (hmagic : file.take 4 = acmMagic)
    (hold : leWord file 8 = 1 ∨ leWord file 8 = 2) :
    (libacm_set_channels file n).length = file.length ∧
    (libacm_set_channels file n).getD 8 0 = (n % 256).toNat ∧
    (∀ i, i ≠ 8 → (libacm_set_channels file n).getD i 0 = file.getD i 0) ∧
    leWord (libacm_set_channels file n) 8 = (n % 256).toNat := by
  rw [set_channels_success file n hlen hmagic hold]
  have h8 : 8 < file.length := by omega
  have h9 : file.getD 9 0 = 0 := set_channels_high_byte file hold
  refine ⟨List.length_set file 8 _, ?_, ?_, ?_⟩
  · simp [List.getD, List.getElem?_set, h8]
  · intro i hi
    simp [List.getD, List.getElem?_set, hi.symm]
  · have e9 : (file.set 8 (n % 256).toNat).getD 9 0 = file.getD 9 0 := by
      simp [List.getD, List.getElem?_set]
    have e8 : (file.set 8 (n % 256).toNat).getD 8 0 = (n % 256).toNat := by
      simp [List.getD, List.getElem?_set, h8]
    rw [leWord_eight, e8, e9, h9]
    omega

/-- C9 (witness). -/
theorem set_channels_frame_witness :
    (libacm_set_channels [151, 40, 3, 1, 0, 0, 0, 0, 1, 0, 0, 0, 0, 0]
          3).length = 14 ∧
      (libacm_set_channels [151, 40, 3, 1, 0, 0, 0, 0, 1, 0, 0, 0, 0, 0]
          3).getD 8 0 = 3 ∧
      (libacm_set_channels [151, 40, 3, 1, 0, 0, 0, 0, 1, 0, 0, 0, 0, 0]
          3).getD 9 0 = 0 ∧
      leWord (libacm_set_channels [151, 40, 3, 1, 0, 0, 0, 0, 1, 0, 0, 0, 0, 0]
          3) 8 = 3 := by
  obtain ⟨h1, h2, h3, h4⟩ := set_channels_frame
    [151, 40, 3, 1, 0, 0, 0, 0, 1, 0, 0, 0, 0, 0] 3 (by decide) (by decide)
    (by decide)
  exact ⟨by simpa using h1, by simpa using h2,
    by simpa using h3 9 (by decide), by simpa using h4⟩

/-- C8: in `libacm_decode_file_to_mem` the memory sink region is
allocated (see `to_mem_region`, the allocation step of
`libacm_decode_file_to_mem`) with size exactly
`(declared_samples << channel_count) + 44` bytes, where
`declared_samples` is the 32-bit little-endian dword read from the input
file at byte offset 4 and `channel_count` is the forced channel count
when non-zero, otherwise the container's stored channel count (stated
here without the mod-2^32 wrap, under the hypothesis that the shifted
size fits a `uint32_t`). -/
theorem to_mem_alloc_size_eq (force stored : Nat) (file : List Nat)
    (h8 : 8 ≤ file.length)
    (hov : leDword file 4 * 2 ^ (if force ≠ 0 then force else stored) + 44
      < 4294967296) :
    to_mem_region force stored file
      = some (List.replicate
          (leDword file 4 * 2 ^ (if force ≠ 0 then force else stored) + 44)
          0) := by
  unfold to_mem_region get_sample_count
  rw [if_pos h8]
  have e : acm_alloc_size (leDword file 4)
      (if force ≠ 0 then force else stored)
      = leDword file 4 * 2 ^ (if force ≠ 0 then force else stored) + 44 := by
    unfold acm_alloc_size
    rw [Nat.shiftLeft_eq]
    generalize leDword file 4 * 2 ^ (if force ≠ 0 then force else stored) = m
      at hov ⊢
    omega
  rw [Option.map_some', e]

/-- C8 (witness): for an 8-byte file whose dword at offset 4 is 4, no
forced channels and stored channel count 1, the region has
`(4 << 1) + 44 = 52` bytes. -/
theorem to_mem_alloc_size_eq_witness :
    to_mem_region 0 1 [151, 40, 3, 1, 4, 0, 0, 0]
      = some (List.replicate 52 0) := by
  simpa using to_mem_alloc_size_eq 0 1 [151, 40, 3, 1, 4, 0, 0, 0]
    (by decide) (by decide)

/-- C10: `libacm_decode_file_to_mem` returns NULL (`none`) exactly when
`acm_open_file` fails or the sample-count dword cannot be read from the
input file (fewer than 8 bytes); in every other case it returns the
allocated buffer. -/
theorem decode_to_mem_none_iff (openOk : Bool) (pt ch stored force sr : Nat)
    (file : List Nat) (steps : List Step) :
    libacm_decode_file_to_mem openOk pt ch stored force sr file steps = none
      ↔ (openOk = false ∨ file.length < 8) := by
  unfold libacm_decode_file_to_mem to_mem_region get_sample_count
  cases openOk
  · simp
  · by_cases h8 : 8 ≤ file.length
    · simp [h8]
    · simp [h8]
      omega
